import Mathlib

/-!
Verification development for the shmap shared-memory key-value store.

The store keeps each value in a named shared-memory segment (a file in
/dev/shm), next to a metadata segment (name suffixed with ".metadata")
carrying the original key, an optional expiration instant and an
encryption flag.  We model the segment namespace as an association list
from segment names to byte strings, and translate the operations of
src/map.rs, src/metadata.rs and src/shm.rs over that state.

External collaborators are modelled through their contracts:
- the bincode codec is a parameter pair (encode, decode) for values, and a
  concrete executable model codec for the Metadata record;
- AES-256-GCM is a Cipher structure (encrypt, decrypt) whose inversion
  property is an explicit hypothesis where needed;
- SHA-224 hex hashing is a parameter hashHex with its shape
  (56 lowercase hex characters) as an explicit hypothesis where needed;
- the named-lock primitive serialises access and is a no-op on state in
  this sequential model.
-/

/-- Byte strings, as lists of naturals. -/
abbrev Bytes := List Nat

/-- The shared-memory namespace: an association list from segment names
to segment contents (src/shm.rs operates on /dev/shm by name). -/
abbrev Fs := List (String × Bytes)

/-- Look up a segment by name (first match). -/
def fsGet : Fs → String → Option Bytes
  | [], _ => none
  | (m, v) :: t, n => if m = n then some v else fsGet t n

/-- Remove every binding of a name (shm_unlink). -/
def fsErase : Fs → String → Fs
  | [], _ => []
  | (m, v) :: t, n => if m = n then fsErase t n else (m, v) :: fsErase t n

/-- Bind a name to fresh contents (shm_open_write with O_CREAT|O_TRUNC
followed by ftruncate and a full mmap copy overwrites the segment). -/
def fsSet (fs : Fs) (n : String) (v : Bytes) : Fs :=
  (n, v) :: fsErase fs n

/-- The error taxonomy of src/errors.rs, restricted to the variants the
modelled code paths construct (the code also references
DurationOutOfRangeError and an AES error, produced in src/metadata.rs and
src/map.rs respectively). -/
inductive ShmapError where
  | shmFileNotFound
  | ioError (code : Nat)
  | bincodeDecodeError
  | bincodeEncodeError
  | durationOutOfRangeError
  | aesGcmError
  | namedLockError
deriving DecidableEq, Repr

/-- The metadata sidecar record of src/metadata.rs: original key, optional
expiration instant (a UTC timestamp, modelled as an integer number of
nanoseconds), and the encryption flag. -/
structure Metadata where
  key : String
  expiration : Option Int
  encrypted : Bool
deriving DecidableEq, Repr

/-- Number of nanoseconds in one second. -/
def nsPerSec : Nat := 1000000000

/-- The 5 second grace window used by Shmap::clean
(Duration::from_secs(5)), in nanoseconds. -/
def graceWindowNs : Nat := 5 * nsPerSec

/-- Largest std Duration (in nanoseconds) accepted by
chrono::Duration::from_std; larger TTLs make it return an out-of-range
error (i64::MAX milliseconds). -/
def chronoMaxNanos : Nat := 9223372036854775807 * 1000000

/-- Zigzag-style injection of the integers into the naturals, used by the
model codec for the expiration timestamp. -/
def natOfInt (i : Int) : Nat :=
  if 0 ≤ i then 2 * i.toNat else 2 * (-i).toNat - 1

/-- Left inverse of natOfInt. -/
def intOfNat (n : Nat) : Int :=
  if n % 2 = 0 then ((n / 2 : Nat) : Int) else -(((n + 1) / 2 : Nat) : Int)

/-- Model bincode encoding of a string: length-prefixed character codes. -/
def encodeStr (s : String) : Bytes :=
  s.data.length :: s.data.map Char.toNat

/-- Model bincode decoding of a string, returning the remaining bytes. -/
def decodeStr : Bytes → Option (String × Bytes)
  | [] => none
  | n :: rest =>
      if n ≤ rest.length then
        some (((rest.take n).map Char.ofNat).asString, rest.drop n)
      else none

/-- Model bincode decoding of a boolean from the front of a byte string
(bincode accepts exactly 0 and 1). -/
def decodeBoolByte : Bytes → Option Bool
  | 0 :: _ => some false
  | 1 :: _ => some true
  | _ => none

/-- Model bincode encoding of the Metadata record. -/
def encodeMeta (md : Metadata) : Bytes :=
  encodeStr md.key
    ++ (match md.expiration with
        | none => [0]
        | some e => [1, natOfInt e])
    ++ [if md.encrypted then 1 else 0]

/-- Model bincode decoding of the Metadata record; like
bincode::serde::decode_from_slice it ignores trailing bytes. -/
def decodeMeta (b : Bytes) : Option Metadata :=
  match decodeStr b with
  | none => none
  | some (key, r1) =>
    match r1 with
    | 0 :: r2 =>
        match decodeBoolByte r2 with
        | some flag => some ⟨key, none, flag⟩
        | none => none
    | 1 :: z :: r2 =>
        match decodeBoolByte r2 with
        | some flag => some ⟨key, some (intOfNat z), flag⟩
        | none => none
    | _ => none

/-- Fuel-driven core of the model of Rust str::trim_end_matches: while the
pattern is a non-empty suffix, drop it from the end. -/
def trimAux (pat : List Char) : Nat → List Char → List Char
  | 0, s => s
  | fuel + 1, s =>
      if _h : pat ≠ [] ∧ pat.length ≤ s.length ∧
          s.drop (s.length - pat.length) = pat then
        trimAux pat fuel (s.take (s.length - pat.length))
      else s

/-- Model of Rust str::trim_end_matches on character lists: repeatedly
removes the trailing occurrence of the pattern. -/
def trimEndList (pat s : List Char) : List Char :=
  trimAux pat s.length s

/-- Model of Rust str::trim_end_matches on strings. -/
def stringTrimEnd (s pat : String) : String :=
  (trimEndList pat.data s.data).asString

/-- Shmap::sanitize_key (src/map.rs): prefix tag "shmap", a dot, then the
hex SHA-224 digest of the key; the hash is an external collaborator passed
as hashHex. -/
def sanitizeKey (hashHex : String → String) (key : String) : String :=
  "shmap." ++ hashHex key

/-- sanitize_metadata_key (src/map.rs): the sanitized key with the
".metadata" suffix. -/
def sanitizeMetadataKey (hashHex : String → String) (key : String) : String :=
  sanitizeKey hashHex key ++ ".metadata"

/-- The named-lock file name derived in Shmap::_get, Shmap::_insert and
Shmap::_remove: the segment name with any ".metadata" suffix
trim_end_matches-stripped, then ".lock" appended. -/
def lockNameOf (segName : String) : String :=
  stringTrimEnd segName ".metadata" ++ ".lock"

/-- The AES-256-GCM cipher built from the 32-byte key, modelled by its
interface: encrypt and decrypt keyed by a 12-byte nonce; decrypt returns
none on authentication failure. -/
structure Cipher where
  enc : Bytes → Bytes → Bytes
  dec : Bytes → Bytes → Option Bytes

/-- The nonce list built in Shmap::_insert: (0..12).collect(), i.e. the
bytes 0,...,11, before shuffling. -/
def nonceBase : Bytes := List.range 12

/-- The set of nonces Shmap::_insert can produce: nonce.shuffle yields
exactly the permutations of nonceBase. -/
def nonceGenerated (n : Bytes) : Prop := n.Perm nonceBase

/-- shm::open_read followed by Mmap::map (src/shm.rs): the segment bytes,
or a distinguished not-found error. -/
def shmOpenRead (fs : Fs) (name : String) : Except ShmapError Bytes :=
  match fsGet fs name with
  | none => .error .shmFileNotFound
  | some b => .ok b

/-- Shmap::_remove (src/map.rs): take the named lock (modelled as a no-op
on state), then shm::unlink, which treats an absent name as success. -/
def removeSeg (fs : Fs) (name : String) : Except ShmapError Unit × Fs :=
  (.ok (), fsErase fs name)

/-- Shmap::_get (src/map.rs): lock, open and map the segment; a missing
segment is None; an empty segment is removed and reported as None; with a
cipher, a segment shorter than the 12-byte nonce is None, otherwise the
nonce is split off and the remainder authenticated-decrypted. -/
def mapGet (cipher : Option Cipher) (fs : Fs) (sanitizedKey : String) :
    Except ShmapError (Option Bytes) × Fs :=
  match shmOpenRead fs sanitizedKey with
  | .error .shmFileNotFound => (.ok none, fs)
  | .error e => (.error e, fs)
  | .ok mm =>
    if mm.length = 0 then
      (.ok none, (removeSeg fs sanitizedKey).2)
    else
      match cipher with
      | some c =>
          if mm.length < 12 then (.ok none, fs)
          else
            match c.dec (mm.take 12) (mm.drop 12) with
            | some plain => (.ok (some plain), fs)
            | none => (.error .aesGcmError, fs)
      | none => (.ok (some mm), fs)

/-- Shmap::get_deserialize (src/map.rs): _get then bincode decode; a
decode failure is a BincodeDecodeError. -/
def getDeserialize {α : Type} (cipher : Option Cipher) (dec : Bytes → Option α)
    (fs : Fs) (name : String) : Except ShmapError (Option α) × Fs :=
  match mapGet cipher fs name with
  | (.ok none, fs1) => (.ok none, fs1)
  | (.ok (some bytes), fs1) =>
      match dec bytes with
      | some v => (.ok (some v), fs1)
      | none => (.error .bincodeDecodeError, fs1)
  | (.error e, fs1) => (.error e, fs1)

/-- Shmap::get_metadata (src/map.rs). -/
def getMetadata (cipher : Option Cipher) (hashHex : String → String)
    (fs : Fs) (key : String) : Except ShmapError (Option Metadata) × Fs :=
  getDeserialize cipher decodeMeta fs (sanitizeMetadataKey hashHex key)

/-- Shmap::remove (src/map.rs): unlink the value segment, then the
metadata segment. -/
def shmapRemove (hashHex : String → String) (fs : Fs) (key : String) :
    Except ShmapError Unit × Fs :=
  match removeSeg fs (sanitizeKey hashHex key) with
  | (.error e, fs1) => (.error e, fs1)
  | (.ok _, fs1) => removeSeg fs1 (sanitizeMetadataKey hashHex key)

/-- Shmap::get (src/map.rs): read the metadata first; absent metadata is
"not found"; an expired item is eagerly removed (ignoring removal errors)
and reported as "not found"; otherwise the value segment is read and
decoded. -/
def shmapGet {α : Type} (cipher : Option Cipher) (dec : Bytes → Option α)
    (hashHex : String → String) (now : Int) (fs : Fs) (key : String) :
    Except ShmapError (Option α) × Fs :=
  match getMetadata cipher hashHex fs key with
  | (.error e, fs1) => (.error e, fs1)
  | (.ok none, fs1) => (.ok none, fs1)
  | (.ok (some md), fs1) =>
    match md.expiration with
    | some e =>
      if now > e then
        (.ok none, (shmapRemove hashHex fs1 key).2)
      else getDeserialize cipher dec fs1 (sanitizeKey hashHex key)
    | none => getDeserialize cipher dec fs1 (sanitizeKey hashHex key)

/-- Shmap::get_raw (src/map.rs). -/
def shmapGetRaw (cipher : Option Cipher) (hashHex : String → String)
    (fs : Fs) (key : String) : Except ShmapError (Option Bytes) × Fs :=
  mapGet cipher fs (sanitizeKey hashHex key)

/-- Failure points injected into the write sequence of Shmap::_insert:
shm_open can fail, ftruncate can fail after the segment was created, and
the mutable memory map can fail after the segment was sized. -/
inductive WriteFail where
  | openFailed
  | truncateFailed
  | mmapFailed
deriving DecidableEq, Repr

/-- The inner write closure of Shmap::_insert (src/map.rs lines 248-253):
shm_open_write creates and truncates the segment, then it is mapped and
the bytes are copied in; each failure point leaves the partial segment
it created. -/
def insertInner (wf : Option WriteFail) (fs : Fs) (name : String)
    (bytes : Bytes) : Except ShmapError Unit × Fs :=
  match wf with
  | some .openFailed => (.error (.ioError 1), fs)
  | some .truncateFailed => (.error (.ioError 2), fsSet fs name [])
  | some .mmapFailed =>
      (.error (.ioError 3), fsSet fs name (List.replicate bytes.length 0))
  | none => (.ok (), fsSet fs name bytes)

/-- Shmap::_insert (src/map.rs): optionally seal the value as
nonce ++ ciphertext, lock, run the write closure; on any failure of the
closure the segment is unlinked before the error is returned. -/
def mapInsert (cipher : Option Cipher) (nonce : Bytes) (wf : Option WriteFail)
    (fs : Fs) (name : String) (value : Bytes) : Except ShmapError Unit × Fs :=
  let bytes :=
    match cipher with
    | some c => nonce ++ c.enc nonce value
    | none => value
  match insertInner wf fs name bytes with
  | (.ok _, fs1) => (.ok (), fs1)
  | (.error e, fs1) => (.error e, (removeSeg fs1 name).2)

/-- Shmap::insert_serialize (src/map.rs): bincode encode then _insert. -/
def insertSerialize {α : Type} (cipher : Option Cipher) (enc : α → Bytes)
    (nonce : Bytes) (wf : Option WriteFail) (fs : Fs) (name : String)
    (v : α) : Except ShmapError Unit × Fs :=
  mapInsert cipher nonce wf fs name (enc v)

/-- Shmap::insert_metadata (src/map.rs): serialize the Metadata record
into the metadata segment of its key, through the same _insert path as
values. -/
def insertMetadata (cipher : Option Cipher) (hashHex : String → String)
    (nonce : Bytes) (wf : Option WriteFail) (fs : Fs) (md : Metadata) :
    Except ShmapError Unit × Fs :=
  insertSerialize cipher encodeMeta nonce wf fs
    (sanitizeMetadataKey hashHex md.key) md

/-- Metadata::new (src/metadata.rs): expiration = now + ttl when a TTL is
given; chrono::Duration::from_std rejects a TTL beyond its range with
DurationOutOfRangeError. -/
def metadataNew (key : String) (ttl : Option Nat) (encrypted : Bool)
    (now : Int) : Except ShmapError Metadata :=
  match ttl with
  | none => .ok ⟨key, none, encrypted⟩
  | some t =>
      if t ≤ chronoMaxNanos then .ok ⟨key, some (now + (t : Int)), encrypted⟩
      else .error .durationOutOfRangeError

/-- Shmap::insert (src/map.rs): write the value segment, then build and
write the metadata record with no expiration. -/
def shmapInsert {α : Type} (cipher : Option Cipher) (enc : α → Bytes)
    (hashHex : String → String) (nonceV nonceM : Bytes)
    (wfV wfM : Option WriteFail) (now : Int) (fs : Fs) (key : String)
    (v : α) : Except ShmapError Unit × Fs :=
  match insertSerialize cipher enc nonceV wfV fs (sanitizeKey hashHex key) v with
  | (.error e, fs1) => (.error e, fs1)
  | (.ok _, fs1) =>
    match metadataNew key none cipher.isSome now with
    | .error e => (.error e, fs1)
    | .ok md => insertMetadata cipher hashHex nonceM wfM fs1 md

/-- Shmap::insert_with_ttl (src/map.rs): write the value segment, then
build (which may fail with DurationOutOfRangeError) and write the
metadata record carrying now + ttl. -/
def shmapInsertWithTtl {α : Type} (cipher : Option Cipher) (enc : α → Bytes)
    (hashHex : String → String) (nonceV nonceM : Bytes)
    (wfV wfM : Option WriteFail) (now : Int) (fs : Fs) (key : String)
    (v : α) (ttl : Nat) : Except ShmapError Unit × Fs :=
  match insertSerialize cipher enc nonceV wfV fs (sanitizeKey hashHex key) v with
  | (.error e, fs1) => (.error e, fs1)
  | (.ok _, fs1) =>
    match metadataNew key (some ttl) cipher.isSome now with
    | .error e => (.error e, fs1)
    | .ok md => insertMetadata cipher hashHex nonceM wfM fs1 md

/-- Shmap::insert_raw (src/map.rs): _insert of the raw bytes under the
sanitized key; no metadata record is written. -/
def shmapInsertRaw (cipher : Option Cipher) (hashHex : String → String)
    (nonce : Bytes) (wf : Option WriteFail) (fs : Fs) (key : String)
    (v : Bytes) : Except ShmapError Unit × Fs :=
  mapInsert cipher nonce wf fs (sanitizeKey hashHex key) v

/-- Bool test for the "shmap" name tag (Rust str::starts_with). -/
def strStartsWith (s pat : String) : Bool :=
  decide (s.data.take pat.data.length = pat.data)

/-- Bool test for a name suffix (Rust str::ends_with). -/
def strEndsWith (s pat : String) : Bool :=
  decide (pat.data.length ≤ s.data.length) &&
    decide (s.data.drop (s.data.length - pat.data.length) = pat.data)

/-- One directory entry processed by Shmap::clean (src/map.rs lines
302-379): the pair of the entry name and its age (now minus its
last-modified time, in nanoseconds). The accumulator carries the live key
list and the segment state. -/
def cleanStep (cipher : Option Cipher) (now : Int)
    (acc : List String × Fs) (entry : String × Nat) : List String × Fs :=
  let keys := acc.1
  let fs := acc.2
  let name := entry.1
  let age := entry.2
  if (fsGet fs name).isNone then
    -- fs::metadata failed, continue
    (keys, fs)
  else if strStartsWith name "shmap" && !(strEndsWith name "metadata") &&
      !(strEndsWith name "lock") then
    let mname := name ++ "." ++ "metadata"
    match getDeserialize cipher decodeMeta fs mname with
    | (.ok (some md), fs1) =>
      match md.expiration with
      | some e =>
        if now > e then
          (keys, (removeSeg ((removeSeg fs1 name).2) mname).2)
        else (keys ++ [md.key], fs1)
      | none => (keys ++ [md.key], fs1)
    | (.ok none, fs1) =>
      if graceWindowNs < age then (keys, (removeSeg fs1 name).2)
      else (keys, fs1)
    | (.error _, fs1) => (keys, fs1)
  else if strStartsWith name "shmap" && strEndsWith name "metadata" then
    let iname := stringTrimEnd name ".metadata"
    if (fsGet fs iname).isNone && decide (graceWindowNs < age) then
      (keys, (removeSeg fs name).2)
    else (keys, fs)
  else if strStartsWith name "shmap" && strEndsWith name "lock" then
    let iname := stringTrimEnd name ".lock"
    if (fsGet fs iname).isNone && (fsGet fs (iname ++ ".metadata")).isNone &&
        decide (graceWindowNs < age) then
      (keys, (removeSeg fs name).2)
    else (keys, fs)
  else (keys, fs)

/-- Shmap::clean (src/map.rs): fold the per-entry classification over a
snapshot of the /dev/shm directory listing, starting from an empty key
list. -/
def shmapClean (cipher : Option Cipher) (now : Int)
    (entries : List (String × Nat)) (fs : Fs) : List String × Fs :=
  entries.foldl (cleanStep cipher now) ([], fs)

/-- A stand-in for the external SHA-224 hex hash, used by witnesses. -/
def testHash : String → String := fun _ => "h"

/-- The sixteen lowercase hex digit characters produced by the SHA-224
hex formatter. -/
def hexDigits : List Char := "0123456789abcdef".data

/-- A stand-in SHA-224 hex digest of the right shape (56 hex characters),
used by the C5 witness. -/
def testHash56 : String → String := fun _ => String.mk (List.replicate 56 'a')

theorem fsGet_erase_same (fs : Fs) (n : String) : fsGet (fsErase fs n) n = none := by
  induction fs with
  | nil => rfl
  | cons p t ih =>
    obtain ⟨m, v⟩ := p
    by_cases h : m = n <;> simp [fsErase, fsGet, h, ih]

theorem fsGet_erase_ne (fs : Fs) {n n' : String} (h : n' ≠ n) :
    fsGet (fsErase fs n) n' = fsGet fs n' := by
  induction fs with
  | nil => rfl
  | cons p t ih =>
    obtain ⟨m, v⟩ := p
    by_cases hm : m = n
    · subst hm
      have hmn : ¬ m = n' := fun hc => h hc.symm
      simp [fsErase, fsGet, hmn, ih]
    · by_cases hm' : m = n' <;> simp [fsErase, fsGet, hm, hm', ih, h]

theorem fsGet_set_same (fs : Fs) (n : String) (v : Bytes) :
    fsGet (fsSet fs n v) n = some v := by
  simp [fsSet, fsGet]

theorem fsGet_set_ne (fs : Fs) {n n' : String} (v : Bytes) (h : n' ≠ n) :
    fsGet (fsSet fs n v) n' = fsGet fs n' := by
  have hnn : ¬ n = n' := fun hc => h hc.symm
  simp [fsSet, fsGet, hnn, fsGet_erase_ne fs h]

theorem fsErase_of_absent {fs : Fs} {n : String} (h : fsGet fs n = none) :
    fsErase fs n = fs := by
  induction fs with
  | nil => rfl
  | cons p t ih =>
    obtain ⟨m, v⟩ := p
    by_cases hm : m = n
    · simp [fsGet, hm] at h
    · simp [fsGet, hm] at h
      simp [fsErase, hm, ih h]

theorem intOfNat_natOfInt (i : Int) : intOfNat (natOfInt i) = i := by
  unfold natOfInt intOfNat
  by_cases h : 0 ≤ i
  · simp [h]
  · simp only [h, if_false]
    rw [if_neg (by omega)]
    omega

theorem decodeStr_encodeStr (s : String) (t : Bytes) :
    decodeStr (encodeStr s ++ t) = some (s, t) := by
  have hlen : (s.data.map Char.toNat).length = s.data.length := by simp
  simp only [encodeStr, decodeStr, List.cons_append]
  rw [if_pos (by simp)]
  rw [List.take_left' hlen, List.drop_left' hlen]
  simp only [List.map_map]
  have hof : (Char.ofNat ∘ Char.toNat) = id := funext fun c => Char.ofNat_toNat c
  rw [hof, List.map_id]
  show some (s.data.asString, t) = some (s, t)
  cases s
  rfl

theorem decodeMeta_encodeMeta (md : Metadata) : decodeMeta (encodeMeta md) = some md := by
  obtain ⟨key, exp, enc⟩ := md
  cases exp with
  | none =>
    cases enc <;>
      simp [encodeMeta, decodeMeta, decodeStr_encodeStr, decodeBoolByte]
  | some e =>
    cases enc <;>
      simp [encodeMeta, decodeMeta, decodeStr_encodeStr, decodeBoolByte,
        intOfNat_natOfInt]

theorem encodeMeta_ne_nil (md : Metadata) : encodeMeta md ≠ [] := by
  simp [encodeMeta, encodeStr]

theorem trimAux_of_notSuffix {pat s : List Char}
    (h : ¬ (pat.length ≤ s.length ∧ s.drop (s.length - pat.length) = pat))
    (fuel : Nat) : trimAux pat fuel s = s := by
  cases fuel with
  | zero => rfl
  | succ f =>
    unfold trimAux
    rw [dif_neg]
    intro hc
    exact h ⟨hc.2.1, hc.2.2⟩

theorem trimAux_append (pat : List Char) (hne : pat ≠ []) (fuel : Nat)
    (s : List Char) : trimAux pat (fuel + 1) (s ++ pat) = trimAux pat fuel s := by
  have hlen : (s ++ pat).length - pat.length = s.length := by
    simp
  conv_lhs => unfold trimAux
  rw [dif_pos]
  · rw [hlen, List.take_left]
  · refine ⟨hne, by simp, ?_⟩
    rw [hlen, List.drop_left]

theorem stringLength_sanitizeMetadataKey (hashHex : String → String) (k : String) :
    (sanitizeMetadataKey hashHex k).length = (sanitizeKey hashHex k).length + 9 := by
  have h9 : (".metadata" : String).length = 9 := rfl
  rw [sanitizeMetadataKey, String.length_append, h9]

theorem sanitizeKey_ne_sanitizeMetadataKey (hashHex : String → String) (k : String) :
    sanitizeKey hashHex k ≠ sanitizeMetadataKey hashHex k := by
  intro h
  have := congrArg String.length h
  rw [stringLength_sanitizeMetadataKey] at this
  omega

theorem sanitizeMetadataKey_ne_sanitizeKey (hashHex : String → String) (k : String) :
    sanitizeMetadataKey hashHex k ≠ sanitizeKey hashHex k :=
  fun h => sanitizeKey_ne_sanitizeMetadataKey hashHex k h.symm

theorem mapGet_of_fsGet_none (cipher : Option Cipher) {fs : Fs} {name : String}
    (h : fsGet fs name = none) : mapGet cipher fs name = (.ok none, fs) := by
  unfold mapGet shmOpenRead
  rw [h]

theorem mapGet_plain_of_fsGet_some {fs : Fs} {name : String} {b : Bytes}
    (h : fsGet fs name = some b) (hne : b ≠ []) :
    mapGet none fs name = (.ok (some b), fs) := by
  unfold mapGet shmOpenRead
  rw [h]
  simp only []
  rw [if_neg (fun hc => hne (List.length_eq_zero.mp hc))]

theorem mapGet_cipher_of_fsGet_some {c : Cipher} {fs : Fs} {name : String}
    {nonce ct p : Bytes} (h : fsGet fs name = some (nonce ++ ct))
    (hN : nonce.length = 12) (hdec : c.dec nonce ct = some p) :
    mapGet (some c) fs name = (.ok (some p), fs) := by
  unfold mapGet shmOpenRead
  rw [h]
  simp only []
  rw [if_neg (by simp [hN])]
  rw [if_neg (by simp [hN])]
  rw [← hN, List.take_left, List.drop_left, hdec]

theorem getDeserialize_of_none {α : Type} (cipher : Option Cipher)
    (dec : Bytes → Option α) {fs : Fs} {name : String}
    (h : fsGet fs name = none) :
    getDeserialize cipher dec fs name = (.ok none, fs) := by
  unfold getDeserialize
  rw [mapGet_of_fsGet_none cipher h]

theorem getDeserialize_plain_some {α : Type} (dec : Bytes → Option α)
    {fs : Fs} {name : String} {b : Bytes} {v : α}
    (h : fsGet fs name = some b) (hne : b ≠ []) (hdec : dec b = some v) :
    getDeserialize none dec fs name = (.ok (some v), fs) := by
  unfold getDeserialize
  rw [mapGet_plain_of_fsGet_some h hne]
  simp only []
  rw [hdec]

theorem getDeserialize_cipher_some {α : Type} {c : Cipher}
    (dec : Bytes → Option α) {fs : Fs} {name : String}
    {nonce ct p : Bytes} {v : α} (h : fsGet fs name = some (nonce ++ ct))
    (hN : nonce.length = 12) (hdec : c.dec nonce ct = some p)
    (hv : dec p = some v) :
    getDeserialize (some c) dec fs name = (.ok (some v), fs) := by
  unfold getDeserialize
  rw [mapGet_cipher_of_fsGet_some h hN hdec]
  simp only []
  rw [hv]

/-- C3: for every insert in which a step after the value write began fails
(segment open, resize/truncate, or memory-map), the partially created
value segment is unlinked before the error is returned, so no partial
value segment survives a failed insert. -/
theorem insert_failure_unlinks_partial_segment (cipher : Option Cipher)
    (nonce : Bytes) (f : WriteFail) (fs : Fs) (name : String) (value : Bytes) :
    (∃ e, (mapInsert cipher nonce (some f) fs name value).1 = .error e) ∧
    fsGet (mapInsert cipher nonce (some f) fs name value).2 name = none := by
  cases f <;>
    exact ⟨⟨_, rfl⟩, by simp [mapInsert, insertInner, removeSeg, fsGet_erase_same]⟩

/-- C6 (code defect): every nonce Shmap::_insert can generate is a
permutation of the fixed list [0,...,11]; in particular the all-zero
12-byte nonce, a perfectly valid 96-bit nonce, can never be produced, so
the generated nonces are not random over the full 96-bit nonce space. -/
theorem nonce_not_full_range (n : Bytes) (h : nonceGenerated n) :
    n ≠ List.replicate 12 0 := by
  intro hc
  have h11 : (11 : Nat) ∈ n := h.mem_iff.mpr (by decide)
  rw [hc] at h11
  exact absurd (List.eq_of_mem_replicate h11) (by decide)

/-- Witness for C6 at the unshuffled nonce [0,...,11]. -/
theorem nonce_not_full_range_witness :
    nonceGenerated nonceBase ∧ nonceBase ≠ List.replicate 12 0 :=
  ⟨List.Perm.refl _, nonce_not_full_range nonceBase (List.Perm.refl _)⟩

/-- C8: remove(k) on an absent key (neither value nor metadata segment
exists) succeeds with no error and leaves the store state unchanged. -/
theorem remove_absent_key_is_noop (hashHex : String → String) (fs : Fs)
    (key : String) (h1 : fsGet fs (sanitizeKey hashHex key) = none)
    (h2 : fsGet fs (sanitizeMetadataKey hashHex key) = none) :
    shmapRemove hashHex fs key = (.ok (), fs) := by
  unfold shmapRemove removeSeg
  rw [fsErase_of_absent h1]
  simp only []
  rw [fsErase_of_absent h2]

/-- Witness for C8 on the empty store. -/
theorem remove_absent_key_is_noop_witness :
    shmapRemove testHash [] "k" = (.ok (), []) :=
  remove_absent_key_is_noop testHash [] "k" rfl rfl

theorem noMetadataSuffix_of_hex {b : List Char} (hLen : b.length = 56)
    (hHex : ∀ c ∈ b, c ∈ hexDigits) :
    ¬ ((".metadata".data).length ≤ ("shmap.".data ++ b).length ∧
        ("shmap.".data ++ b).drop
          (("shmap.".data ++ b).length - (".metadata".data).length)
          = ".metadata".data) := by
  rintro ⟨-, hd⟩
  have h6 : ("shmap.".data).length = 6 := by decide
  have h53 : ("shmap.".data ++ b).length - (".metadata".data).length
      = ("shmap.".data).length + 47 := by
    rw [List.length_append, h6, hLen]
    decide
  rw [h53, List.drop_append] at hd
  have hdot : '.' ∈ List.drop 47 b := by
    rw [hd]
    decide
  exact absurd (hHex _ (List.mem_of_mem_drop hdot)) (by decide)

/-- C5: for every logical key, the lock file name derived from the data
segment name equals the lock file name derived from the metadata segment
name (the ".metadata" suffix is stripped before ".lock" is appended), so
both operations of one logical key contend on one lock identity. The
SHA-224 hex digest is characterised by its 56 lowercase hex characters. -/
theorem lock_name_shared (hashHex : String → String) (k : String)
    (hLen : (hashHex k).data.length = 56)
    (hHex : ∀ c ∈ (hashHex k).data, c ∈ hexDigits) :
    lockNameOf (sanitizeKey hashHex k) = lockNameOf (sanitizeMetadataKey hashHex k) := by
  have hnosuf := noMetadataSuffix_of_hex hLen hHex
  have hdata : (sanitizeKey hashHex k).data = "shmap.".data ++ (hashHex k).data := by
    rw [sanitizeKey, String.data_append]
  have hmdata : (sanitizeMetadataKey hashHex k).data
      = ("shmap.".data ++ (hashHex k).data) ++ ".metadata".data := by
    rw [sanitizeMetadataKey, String.data_append, hdata]
  have hvlen : ("shmap.".data ++ (hashHex k).data).length = 62 := by
    rw [List.length_append, hLen]
    decide
  have htrimv : trimEndList ".metadata".data ("shmap.".data ++ (hashHex k).data)
      = "shmap.".data ++ (hashHex k).data := by
    unfold trimEndList
    exact trimAux_of_notSuffix hnosuf _
  have htrimm : trimEndList ".metadata".data
      (("shmap.".data ++ (hashHex k).data) ++ ".metadata".data)
      = "shmap.".data ++ (hashHex k).data := by
    unfold trimEndList
    have hlen71 : ((("shmap.".data ++ (hashHex k).data) ++ ".metadata".data)).length
        = 70 + 1 := by
      rw [List.length_append, hvlen]
      decide
    rw [hlen71, trimAux_append _ (by decide)]
    exact trimAux_of_notSuffix hnosuf 70
  unfold lockNameOf stringTrimEnd
  rw [hdata, hmdata, htrimv, htrimm]

/-- Witness for C5 at a concrete key and digest. -/
theorem lock_name_shared_witness :
    lockNameOf (sanitizeKey testHash56 "k") = lockNameOf (sanitizeMetadataKey testHash56 "k") :=
  lock_name_shared testHash56 "k" (by decide) (by decide)

/-- C7: for every TTL beyond the range of the clock type,
insert_with_ttl returns DurationOutOfRangeError and writes no metadata
record (the metadata segment is exactly as before the call). -/
theorem ttl_out_of_range_refused {α : Type} (cipher : Option Cipher)
    (enc : α → Bytes) (hashHex : String → String) (nonceV nonceM : Bytes)
    (now : Int) (fs : Fs) (key : String) (v : α) (ttl : Nat)
    (h : chronoMaxNanos < ttl) :
    (shmapInsertWithTtl cipher enc hashHex nonceV nonceM none none now fs key v ttl).1
      = .error .durationOutOfRangeError ∧
    fsGet (shmapInsertWithTtl cipher enc hashHex nonceV nonceM none none now fs key v ttl).2
        (sanitizeMetadataKey hashHex key)
      = fsGet fs (sanitizeMetadataKey hashHex key) := by
  unfold shmapInsertWithTtl insertSerialize mapInsert insertInner metadataNew
  simp only []
  rw [if_neg (by omega)]
  refine ⟨rfl, ?_⟩
  exact fsGet_set_ne fs _ (sanitizeMetadataKey_ne_sanitizeKey hashHex key)

/-- Witness for C7 at a TTL one past the chrono range. -/
theorem ttl_out_of_range_refused_witness :
    (shmapInsertWithTtl none (fun _ : Unit => [1]) testHash [] [] none none 0 [] "k" ()
        (chronoMaxNanos + 1)).1 = .error .durationOutOfRangeError ∧
    fsGet (shmapInsertWithTtl none (fun _ : Unit => [1]) testHash [] [] none none 0 [] "k" ()
        (chronoMaxNanos + 1)).2 (sanitizeMetadataKey testHash "k")
      = fsGet [] (sanitizeMetadataKey testHash "k") :=
  ttl_out_of_range_refused none (fun _ : Unit => [1]) testHash [] [] 0 [] "k" ()
    (chronoMaxNanos + 1) (by omega)

/-- C2: for every key whose metadata record is present and carries an
expiration strictly earlier than now, get(k) removes both the value and
the metadata segment as a side effect and returns Ok(None) — never the
stored value and never an error caused by the expiry. -/
theorem expired_get_removes_and_returns_none {α : Type} (cipher : Option Cipher)
    (dec : Bytes → Option α) (hashHex : String → String) (now : Int)
    (fs : Fs) (key : String) (md : Metadata) (e : Int)
    (hMeta : getMetadata cipher hashHex fs key = (.ok (some md), fs))
    (hExp : md.expiration = some e) (hNow : e < now) :
    (shmapGet cipher dec hashHex now fs key).1 = .ok none ∧
    fsGet (shmapGet cipher dec hashHex now fs key).2 (sanitizeKey hashHex key) = none ∧
    fsGet (shmapGet cipher dec hashHex now fs key).2 (sanitizeMetadataKey hashHex key) = none := by
  have hred : shmapGet cipher dec hashHex now fs key
      = (.ok none, (shmapRemove hashHex fs key).2) := by
    unfold shmapGet
    rw [hMeta]
    simp only [hExp]
    rw [if_pos (show now > e from hNow)]
  rw [hred]
  refine ⟨rfl, ?_, ?_⟩
  · unfold shmapRemove removeSeg
    simp only []
    rw [fsGet_erase_ne _ (sanitizeKey_ne_sanitizeMetadataKey hashHex key)]
    exact fsGet_erase_same fs _
  · unfold shmapRemove removeSeg
    simp only []
    exact fsGet_erase_same _ _

/-- Witness for C2: an unencrypted store holding an expired metadata
record for key "k"; get at a later time returns None and erases both
segment names. -/
theorem expired_get_removes_witness :
    (shmapGet (none : Option Cipher) (fun _ => some ()) testHash 6
        [(sanitizeMetadataKey testHash "k", encodeMeta ⟨"k", some 5, false⟩)] "k").1
      = .ok none ∧
    fsGet (shmapGet (none : Option Cipher) (fun _ => some ()) testHash 6
        [(sanitizeMetadataKey testHash "k", encodeMeta ⟨"k", some 5, false⟩)] "k").2
        (sanitizeKey testHash "k") = none ∧
    fsGet (shmapGet (none : Option Cipher) (fun _ => some ()) testHash 6
        [(sanitizeMetadataKey testHash "k", encodeMeta ⟨"k", some 5, false⟩)] "k").2
        (sanitizeMetadataKey testHash "k") = none :=
  expired_get_removes_and_returns_none none (fun _ => some ()) testHash 6
    [(sanitizeMetadataKey testHash "k", encodeMeta ⟨"k", some 5, false⟩)] "k"
    ⟨"k", some 5, false⟩ 5 (by rfl) rfl (by omega)

/-- Counterexample to C1 as stated: the unit type serializes to zero
bytes under bincode (encode = [], decode consumes nothing and succeeds),
satisfying the codec round-trip contract; yet on an unencrypted store
insert succeeds and the following typed get returns Ok(None), because
_get treats the empty value segment as corrupted, removes it and reports
"not found". -/
theorem roundtrip_counterexample :
    ((fun _ : Bytes => some ()) ((fun _ : Unit => ([] : Bytes)) ()) = some ()) ∧
    (shmapInsert none (fun _ : Unit => ([] : Bytes)) testHash [] [] none none 0 [] "k" ()).1
      = .ok () ∧
    (shmapGet none (fun _ : Bytes => some ()) testHash 0
        (shmapInsert none (fun _ : Unit => ([] : Bytes)) testHash [] [] none none 0 [] "k" ()).2
        "k").1 = .ok none ∧
    (Except.ok none : Except ShmapError (Option Unit)) ≠ .ok (some ()) := by
  refine ⟨rfl, rfl, by rfl, ?_⟩
  intro h
  exact Option.noConfusion (Except.ok.inj h)

/-- C1 as amended: insert(k, v) followed by get(k) returns Ok(Some v) for
every codec satisfying the bincode round-trip contract, provided the
encoding of v is non-empty when the store is unencrypted; with encryption
the sealed envelope is never empty and the round trip is unconditional. -/
theorem insert_get_roundtrip {α : Type} (cipher : Option Cipher)
    (enc : α → Bytes) (dec : Bytes → Option α) (hashHex : String → String)
    (nonceV nonceM : Bytes) (now : Int) (fs : Fs) (key : String) (v : α)
    (hCodec : dec (enc v) = some v)
    (hNonempty : cipher = none → enc v ≠ [])
    (hCipherInv : ∀ c, cipher = some c → ∀ n p, c.dec n (c.enc n p) = some p)
    (hNv : nonceV.length = 12) (hNm : nonceM.length = 12) :
    (shmapInsert cipher enc hashHex nonceV nonceM none none now fs key v).1 = .ok () ∧
    (shmapGet cipher dec hashHex now
        (shmapInsert cipher enc hashHex nonceV nonceM none none now fs key v).2 key).1
      = .ok (some v) := by
  cases cipher with
  | none =>
    have hfs2 : (shmapInsert none enc hashHex nonceV nonceM none none now fs key v).2
        = fsSet (fsSet fs (sanitizeKey hashHex key) (enc v))
            (sanitizeMetadataKey hashHex key) (encodeMeta ⟨key, none, false⟩) := rfl
    refine ⟨rfl, ?_⟩
    rw [hfs2]
    have hmGet : fsGet (fsSet (fsSet fs (sanitizeKey hashHex key) (enc v))
        (sanitizeMetadataKey hashHex key) (encodeMeta ⟨key, none, false⟩))
        (sanitizeMetadataKey hashHex key) = some (encodeMeta ⟨key, none, false⟩) :=
      fsGet_set_same _ _ _
    have hvGet : fsGet (fsSet (fsSet fs (sanitizeKey hashHex key) (enc v))
        (sanitizeMetadataKey hashHex key) (encodeMeta ⟨key, none, false⟩))
        (sanitizeKey hashHex key) = some (enc v) := by
      rw [fsGet_set_ne _ _ (sanitizeKey_ne_sanitizeMetadataKey hashHex key)]
      exact fsGet_set_same _ _ _
    unfold shmapGet getMetadata
    rw [getDeserialize_plain_some decodeMeta hmGet (encodeMeta_ne_nil _)
      (decodeMeta_encodeMeta _)]
    simp only []
    rw [getDeserialize_plain_some dec hvGet (hNonempty rfl) hCodec]
  | some c =>
    have hInv := hCipherInv c rfl
    have hfs2 : (shmapInsert (some c) enc hashHex nonceV nonceM none none now fs key v).2
        = fsSet (fsSet fs (sanitizeKey hashHex key) (nonceV ++ c.enc nonceV (enc v)))
            (sanitizeMetadataKey hashHex key)
            (nonceM ++ c.enc nonceM (encodeMeta ⟨key, none, true⟩)) := rfl
    refine ⟨rfl, ?_⟩
    rw [hfs2]
    have hmGet : fsGet (fsSet (fsSet fs (sanitizeKey hashHex key)
          (nonceV ++ c.enc nonceV (enc v)))
        (sanitizeMetadataKey hashHex key)
          (nonceM ++ c.enc nonceM (encodeMeta ⟨key, none, true⟩)))
        (sanitizeMetadataKey hashHex key)
        = some (nonceM ++ c.enc nonceM (encodeMeta ⟨key, none, true⟩)) :=
      fsGet_set_same _ _ _
    have hvGet : fsGet (fsSet (fsSet fs (sanitizeKey hashHex key)
          (nonceV ++ c.enc nonceV (enc v)))
        (sanitizeMetadataKey hashHex key)
          (nonceM ++ c.enc nonceM (encodeMeta ⟨key, none, true⟩)))
        (sanitizeKey hashHex key) = some (nonceV ++ c.enc nonceV (enc v)) := by
      rw [fsGet_set_ne _ _ (sanitizeKey_ne_sanitizeMetadataKey hashHex key)]
      exact fsGet_set_same _ _ _
    unfold shmapGet getMetadata
    rw [getDeserialize_cipher_some decodeMeta hmGet hNm (hInv _ _)
      (decodeMeta_encodeMeta _)]
    simp only []
    rw [getDeserialize_cipher_some dec hvGet hNv (hInv _ _) hCodec]

/-- Witness for C1 (amended) on an unencrypted store with a one-byte
codec for the unit type. -/
theorem insert_get_roundtrip_witness :
    (shmapInsert none (fun _ : Unit => [7])
        testHash nonceBase nonceBase none none 0 [] "k" ()).1 = .ok () ∧
    (shmapGet none (fun b : Bytes => if b = [7] then some () else none) testHash 0
        (shmapInsert none (fun _ : Unit => [7])
          testHash nonceBase nonceBase none none 0 [] "k" ()).2 "k").1
      = .ok (some ()) :=
  insert_get_roundtrip none (fun _ : Unit => [7])
    (fun b : Bytes => if b = [7] then some () else none) testHash
    nonceBase nonceBase 0 [] "k" () (by decide) (fun _ => by decide)
    (fun c hc => nomatch hc) (by decide) (by decide)

/-- Counterexample to C9 as stated: insert_raw of the empty byte string
on an unencrypted store succeeds, but get_raw then returns Ok(None), not
Some([]), because _get treats an empty segment as corrupted. -/
theorem insert_raw_counterexample :
    (shmapInsertRaw none testHash [] none [] "k" []).1 = .ok () ∧
    (shmapGetRaw none testHash (shmapInsertRaw none testHash [] none [] "k" []).2 "k").1
      = .ok none ∧
    (Except.ok none : Except ShmapError (Option Bytes)) ≠ .ok (some []) := by
  refine ⟨rfl, by rfl, ?_⟩
  intro h
  exact Option.noConfusion (Except.ok.inj h)

/-- C9 as amended: insert_raw writes only the value segment and creates
no metadata record, so a subsequent typed get returns Ok(None) (absent
metadata means "not found") while get_raw returns Ok(Some v) — provided
v is non-empty when the store is unencrypted (an empty raw value is read
back as None). -/
theorem insert_raw_invisible_to_typed_get {α : Type} (cipher : Option Cipher)
    (dec : Bytes → Option α) (hashHex : String → String) (nonce : Bytes)
    (now : Int) (fs : Fs) (key : String) (v : Bytes)
    (hNonempty : cipher = none → v ≠ [])
    (hCipherInv : ∀ c, cipher = some c → ∀ n p, c.dec n (c.enc n p) = some p)
    (hN : nonce.length = 12)
    (hMetaAbsent : fsGet fs (sanitizeMetadataKey hashHex key) = none) :
    (shmapInsertRaw cipher hashHex nonce none fs key v).1 = .ok () ∧
    fsGet (shmapInsertRaw cipher hashHex nonce none fs key v).2
        (sanitizeMetadataKey hashHex key) = none ∧
    (shmapGet cipher dec hashHex now
        (shmapInsertRaw cipher hashHex nonce none fs key v).2 key).1 = .ok none ∧
    (shmapGetRaw cipher hashHex
        (shmapInsertRaw cipher hashHex nonce none fs key v).2 key).1
      = .ok (some v) := by
  have hMeta2 : fsGet (shmapInsertRaw cipher hashHex nonce none fs key v).2
      (sanitizeMetadataKey hashHex key) = none := by
    cases cipher <;>
      · show fsGet (fsSet fs (sanitizeKey hashHex key) _)
            (sanitizeMetadataKey hashHex key) = none
        rw [fsGet_set_ne _ _ (sanitizeMetadataKey_ne_sanitizeKey hashHex key)]
        exact hMetaAbsent
  refine ⟨?_, hMeta2, ?_, ?_⟩
  · cases cipher <;> rfl
  · unfold shmapGet getMetadata
    rw [getDeserialize_of_none cipher decodeMeta hMeta2]
  · cases cipher with
    | none =>
      have hvGet : fsGet (shmapInsertRaw none hashHex nonce none fs key v).2
          (sanitizeKey hashHex key) = some v := fsGet_set_same _ _ _
      unfold shmapGetRaw
      rw [mapGet_plain_of_fsGet_some hvGet (hNonempty rfl)]
    | some c =>
      have hvGet : fsGet (shmapInsertRaw (some c) hashHex nonce none fs key v).2
          (sanitizeKey hashHex key) = some (nonce ++ c.enc nonce v) :=
        fsGet_set_same _ _ _
      unfold shmapGetRaw
      rw [mapGet_cipher_of_fsGet_some hvGet hN (hCipherInv c rfl _ _)]

/-- Witness for C9 (amended) at a one-byte raw value on an unencrypted
store. -/
theorem insert_raw_invisible_witness :
    (shmapInsertRaw none testHash nonceBase none [] "k" [5]).1 = .ok () ∧
    fsGet (shmapInsertRaw none testHash nonceBase none [] "k" [5]).2
        (sanitizeMetadataKey testHash "k") = none ∧
    (shmapGet none (fun _ : Bytes => (none : Option Unit)) testHash 0
        (shmapInsertRaw none testHash nonceBase none [] "k" [5]).2 "k").1 = .ok none ∧
    (shmapGetRaw none testHash
        (shmapInsertRaw none testHash nonceBase none [] "k" [5]).2 "k").1
      = .ok (some [5]) :=
  insert_raw_invisible_to_typed_get none (fun _ : Bytes => (none : Option Unit))
    testHash nonceBase 0 [] "k" [5] (fun _ => by decide)
    (fun c hc => nomatch hc) (by decide) rfl

/-- C10: on an encrypted store every metadata record goes through the
same sealing _insert path as values: the stored metadata segment is
exactly nonce ++ encrypt(nonce, bincode(metadata)); and whenever that
sealed blob is not itself a valid bincode encoding (the cryptographic
expectation), a store built without the key fails to deserialize it,
surfacing BincodeDecodeError instead of a metadata record. -/
theorem metadata_sealed_same_envelope (c : Cipher) (hashHex : String → String)
    (nonce : Bytes) (fs : Fs) (md : Metadata)
    (hN : nonce.length = 12)
    (hNoDecode : decodeMeta (nonce ++ c.enc nonce (encodeMeta md)) = none) :
    (insertMetadata (some c) hashHex nonce none fs md).1 = .ok () ∧
    insertMetadata (some c) hashHex nonce none fs md
      = mapInsert (some c) nonce none fs (sanitizeMetadataKey hashHex md.key)
          (encodeMeta md) ∧
    fsGet (insertMetadata (some c) hashHex nonce none fs md).2
        (sanitizeMetadataKey hashHex md.key)
      = some (nonce ++ c.enc nonce (encodeMeta md)) ∧
    (getDeserialize (none : Option Cipher) decodeMeta
        (insertMetadata (some c) hashHex nonce none fs md).2
        (sanitizeMetadataKey hashHex md.key)).1 = .error .bincodeDecodeError := by
  have hSeg : fsGet (insertMetadata (some c) hashHex nonce none fs md).2
      (sanitizeMetadataKey hashHex md.key)
      = some (nonce ++ c.enc nonce (encodeMeta md)) := fsGet_set_same _ _ _
  refine ⟨rfl, rfl, hSeg, ?_⟩
  have hne : nonce ++ c.enc nonce (encodeMeta md) ≠ [] := by
    intro hc
    have := congrArg List.length hc
    rw [List.length_append, hN] at this
    simp at this
  unfold getDeserialize
  rw [mapGet_plain_of_fsGet_some hSeg hne]
  simp only []
  rw [hNoDecode]

/-- Witness for C10 with the identity cipher and the unshuffled nonce:
the sealed metadata blob fails plain bincode decoding. -/
theorem metadata_sealed_same_envelope_witness :
    (insertMetadata (some ⟨fun _ p => p, fun _ b => some b⟩) testHash nonceBase none []
        ⟨"k", none, true⟩).1 = .ok () ∧
    insertMetadata (some ⟨fun _ p => p, fun _ b => some b⟩) testHash nonceBase none []
        ⟨"k", none, true⟩
      = mapInsert (some ⟨fun _ p => p, fun _ b => some b⟩) nonceBase none []
          (sanitizeMetadataKey testHash "k") (encodeMeta ⟨"k", none, true⟩) ∧
    fsGet (insertMetadata (some ⟨fun _ p => p, fun _ b => some b⟩) testHash nonceBase none []
        ⟨"k", none, true⟩).2 (sanitizeMetadataKey testHash "k")
      = some (nonceBase ++ (Cipher.mk (fun _ p => p) (fun _ b => some b)).enc nonceBase
          (encodeMeta ⟨"k", none, true⟩)) ∧
    (getDeserialize (none : Option Cipher) decodeMeta
        (insertMetadata (some ⟨fun _ p => p, fun _ b => some b⟩) testHash nonceBase none []
          ⟨"k", none, true⟩).2
        (sanitizeMetadataKey testHash "k")).1 = .error .bincodeDecodeError :=
  metadata_sealed_same_envelope ⟨fun _ p => p, fun _ b => some b⟩ testHash nonceBase []
    ⟨"k", none, true⟩ (by decide) (by decide)

/-- C4: in a clean() sweep, a value segment whose metadata record is
absent is removed if and only if it is older than the 5-second grace
window, and a metadata segment whose value segment is absent is removed
if and only if it is older than the grace window; in both cases an entry
younger than the grace window leaves the state wholly untouched. -/
theorem clean_orphan_grace_window (cipher : Option Cipher) (now : Int)
    (fs : Fs) (name : String) (age : Nat) (bytes : Bytes) :
    ((strStartsWith name "shmap" = true) → (strEndsWith name "metadata" = false) →
      (strEndsWith name "lock" = false) → fsGet fs name = some bytes →
      getDeserialize cipher decodeMeta fs (name ++ "." ++ "metadata") = (.ok none, fs) →
      (fsGet (shmapClean cipher now [(name, age)] fs).2 name = none ↔ graceWindowNs < age) ∧
        (¬ graceWindowNs < age → (shmapClean cipher now [(name, age)] fs).2 = fs)) ∧
    ((strStartsWith name "shmap" = true) → (strEndsWith name "metadata" = true) →
      fsGet fs name = some bytes →
      fsGet fs (stringTrimEnd name ".metadata") = none →
      (fsGet (shmapClean cipher now [(name, age)] fs).2 name = none ↔ graceWindowNs < age) ∧
        (¬ graceWindowNs < age → (shmapClean cipher now [(name, age)] fs).2 = fs)) := by
  constructor
  · intro hStart hNotMeta hNotLock hFs hMeta
    have hred : shmapClean cipher now [(name, age)] fs
        = cleanStep cipher now ([], fs) (name, age) := rfl
    rw [hred]
    unfold cleanStep
    simp only [hFs, hStart, hNotMeta, hNotLock, Option.isNone_some,
      Bool.false_eq_true, if_false, Bool.not_false, Bool.and_self,
      Bool.and_true, if_true, hMeta]
    by_cases hAge : graceWindowNs < age
    · rw [if_pos hAge]
      exact ⟨⟨fun _ => hAge, fun _ => fsGet_erase_same fs name⟩,
        fun hc => absurd hAge hc⟩
    · rw [if_neg hAge]
      refine ⟨⟨fun hc => ?_, fun hc => absurd hc hAge⟩, fun _ => rfl⟩
      rw [hFs] at hc
      exact Option.noConfusion hc
  · intro hStart hMeta hFs hOrphan
    have hred : shmapClean cipher now [(name, age)] fs
        = cleanStep cipher now ([], fs) (name, age) := rfl
    rw [hred]
    unfold cleanStep
    simp only [hFs, hStart, hMeta, hOrphan, Option.isNone_some, Option.isNone_none,
      Bool.not_true, Bool.and_false, Bool.false_and, Bool.and_true, Bool.true_and,
      Bool.false_eq_true, if_false, if_true]
    by_cases hAge : graceWindowNs < age
    · rw [if_pos (decide_eq_true hAge)]
      exact ⟨⟨fun _ => hAge, fun _ => fsGet_erase_same fs name⟩,
        fun hc => absurd hAge hc⟩
    · rw [if_neg (fun hc => hAge (of_decide_eq_true hc))]
      refine ⟨⟨fun hc => ?_, fun hc => absurd hc hAge⟩, fun _ => rfl⟩
      rw [hFs] at hc
      exact Option.noConfusion hc

/-- Witness for C4: a metadata-less value segment and a value-less
metadata segment, both one past the grace window, are removed by the
sweep. -/
theorem clean_orphan_grace_window_witness :
    fsGet (shmapClean none 0 [("shmap.aa", graceWindowNs + 1)]
        [("shmap.aa", [1])]).2 "shmap.aa" = none ∧
    fsGet (shmapClean none 0 [("shmap.aa.metadata", graceWindowNs + 1)]
        [("shmap.aa.metadata", [1])]).2 "shmap.aa.metadata" = none := by
  constructor
  · exact ((clean_orphan_grace_window none 0 [("shmap.aa", [1])] "shmap.aa"
      (graceWindowNs + 1) [1]).1 (by decide) (by decide) (by decide) (by rfl)
      (by rfl)).1.mpr (by omega)
  · exact ((clean_orphan_grace_window none 0 [("shmap.aa.metadata", [1])]
      "shmap.aa.metadata" (graceWindowNs + 1) [1]).2 (by decide) (by decide)
      (by rfl) (by decide)).1.mpr (by omega)
